import Mathlib

/-!
Shallow embedding of the request-authorization core of the oauth2-proxy
repository: authorization rules (pkg/authorization/rule.go), the three rule
indices (pkg/authorization/index/{path,ips}.go and the MethodsIndex), the
rules engine (the engine package), the CSRF cookie codec
(pkg/cookies/csrf.go) and the secret handling (utils.SecretBytes).

Modelling conventions, fixed once for the whole file:
* Go strings that are sliced byte-wise (path regexes, request paths) are
  modelled as `List Char`; raw byte strings (secrets, nonces) as `List Nat`.
  The characters appearing in the relevant slicing decisions are ASCII, so
  byte indices and character indices agree on every branch the code takes.
* Go maps are modelled as association lists; Go map-key sets as deduplicated
  lists.
* Shared `*Rule` pointers are modelled as integer handles into the engine's
  global rule list, following the design note of the specification that a
  GC-free model should carry integer handles into the rule list.
* `ip.GetClientIP(parser, req)` (package pkg/ip, outside the sources at
  hand) is a pure function of the request; its outcome is carried on the
  request as `clientIP : Except Unit (Option IPAddr)` (`error` = the parser
  failed, `ok none` = nil address, `ok (some a)` = resolved address).
* External randomness and cryptography (encryption.Nonce, the CFB cipher,
  SignedValue/Validate, msgpack) are modelled from the specification, as
  marked on each definition.
-/

namespace OAuth2Proxy

/-- Client addresses, abstracted to one `Nat` per address. -/
abbrev IPAddr := Nat

/-- Models `net.IPNet` by its containment predicate. -/
abbrev IPNet := IPAddr → Bool

/-- Models `ip.NetSet`: the list of nets added with `AddIPNet`.
`GetIPNets` is the list itself. -/
abbrev NetSet := List IPNet

/-- Models `ip.NetSet.Has`: true iff the address lies in one of the nets. -/
def netSetHas (ns : NetSet) (a : IPAddr) : Bool := ns.any (fun n => n a)

/-- Models `authorization.PathRegex`: the raw regex string together with the
compiled regex, the latter abstracted to its matching function
(`Compiled.MatchString`). -/
structure PathRegex where
  raw : List Char
  compiled : List Char → Bool

/-- The part of `*http.Request` the authorization core reads, with the
client-IP resolution outcome precomputed (see the file header). -/
structure Request where
  path : List Char
  method : String
  clientIP : Except Unit (Option IPAddr)

/-- Models `authorization.Rule` (rule.go).  `hits` is the private counter. -/
structure Rule where
  id : String
  policy : String
  path : Option PathRegex
  methods : Option (List String)
  ips : Option NetSet
  hits : Nat

/-- Go constant `authorization.Allow`. -/
def ALLOW : String := "ALLOW"

/-- Go constant `authorization.Deny`. -/
def DENY : String := "DENY"

/-- Models `Rule.checkPath` (rule.go): regex test, vacuously true when the
path is absent. -/
def Rule.checkPath (r : Rule) (req : Request) : Bool :=
  match r.path with
  | none => true
  | some p => p.compiled req.path

/-- Models `Rule.checkMethods` (rule.go): set membership, vacuously true
when the methods set is absent. -/
def Rule.checkMethods (r : Rule) (req : Request) : Bool :=
  match r.methods with
  | none => true
  | some ms => ms.contains req.method

/-- Models `Rule.checkIPs` (rule.go): parser error or nil address give
false; otherwise NetSet membership; vacuously true when `ips` is absent. -/
def Rule.checkIPs (r : Rule) (req : Request) : Bool :=
  match r.ips with
  | none => true
  | some ns =>
    match req.clientIP with
    | .error _ => false
    | .ok none => false
    | .ok (some a) => netSetHas ns a

/-- The policy-and-fields conjunction shared by `Rule.Allow` and
`Rule.Deny`: `r.Policy == pol && r.checkPath(req) && r.checkMethods(req) &&
r.checkIPs(req, parser)`. -/
def Rule.cond (r : Rule) (pol : String) (req : Request) : Bool :=
  r.policy == pol && r.checkPath req && r.checkMethods req && r.checkIPs req

/-- Models `Rule.Allow` (rule.go): on a full match under the ALLOW policy,
increment `hits` and return true; otherwise leave the rule unchanged. -/
def Rule.Allow (r : Rule) (req : Request) : Bool × Rule :=
  if r.cond ALLOW req then (true, { r with hits := r.hits + 1 }) else (false, r)

/-- Models `Rule.Deny` (rule.go): the DENY counterpart of `Rule.Allow`. -/
def Rule.Deny (r : Rule) (req : Request) : Bool × Rule :=
  if r.cond DENY req then (true, { r with hits := r.hits + 1 }) else (false, r)

/-- Models `buildPathRegex` (rule.go): empty path gives an absent
`PathRegex`; otherwise the raw string is compiled (`compile` models
`regexp.Compile`, failing with `none` on an invalid pattern). -/
def buildPathRegex (compile : List Char → Option (List Char → Bool))
    (path : List Char) : Except String (Option PathRegex) :=
  if path = [] then .ok none
  else
    match compile path with
    | none => .error "error compiling regex"
    | some c => .ok (some { raw := path, compiled := c })

/-- Models `buildMethodSet` (rule.go): uppercase each method and collect the
set of them (`dedup` models the Go map keys). -/
def buildMethodSet (methods : Option (List String)) : Option (List String) :=
  match methods with
  | none => none
  | some l => some ((l.map String.toUpper).dedup)

/-- Models `buildNetSet` (rule.go): parse every entry (`parseNet` models
`ip.ParseIPNet`, `none` on an unparseable entry); fail if any entry failed,
otherwise return the NetSet of all parsed entries. -/
def buildNetSet (parseNet : String → Option IPNet)
    (ips : Option (List String)) : Except String (Option NetSet) :=
  match ips with
  | none => .ok none
  | some l =>
    if l.filter (fun s => (parseNet s).isNone) ≠ [] then
      .error "could not parse trusted IP network(s)"
    else
      .ok (some (l.filterMap parseNet))

/-- Models `NewRule` (rule.go): validate the policy, build the three field
predicates, start with zero hits. -/
def NewRule (compile : List Char → Option (List Char → Bool))
    (parseNet : String → Option IPNet) (id policy : String) (path : List Char)
    (methods : Option (List String)) (ips : Option (List String)) :
    Except String Rule :=
  if ¬(policy = ALLOW ∨ policy = DENY) then .error "invalid policy type"
  else
    match buildPathRegex compile path with
    | .error e => .error e
    | .ok pr =>
      match buildNetSet parseNet ips with
      | .error e => .error e
      | .ok ns =>
        .ok { id := id, policy := policy, path := pr,
              methods := buildMethodSet methods, ips := ns, hits := 0 }

/-! ### Association-list helpers (model of Go maps) -/

/-- Lookup in an association list (Go map read `m[k]`, `ok` = `isSome`). -/
def assocLookup {κ α : Type} [DecidableEq κ] : List (κ × α) → κ → Option α
  | [], _ => none
  | (k', v) :: rest, k => if k' = k then some v else assocLookup rest k

/-- Go `m[k] = append(m[k], x)`: append to the bucket at `k`, creating the
key when absent. -/
def assocAppend {κ α : Type} [DecidableEq κ] :
    List (κ × List α) → κ → α → List (κ × List α)
  | [], k, x => [(k, [x])]
  | (k', v) :: rest, k, x =>
    if k' = k then (k', v ++ [x]) :: rest else (k', v) :: assocAppend rest k x

/-- Replace the bucket stored at a present key (models an in-place update
of the slice stored in a Go map; absent keys are left alone). -/
def assocSet {κ α : Type} [DecidableEq κ] : List (κ × α) → κ → α → List (κ × α)
  | [], _, _ => []
  | (k', v') :: rest, k, v =>
    if k' = k then (k', v) :: rest else (k', v') :: assocSet rest k v

/-! ### PathIndex (index/path.go) -/

/-- The key computation of `PathIndex.IndexRule`: Go computes `start`/`end`
from the raw string and returns `rawRegex[start:end]`.  This is the value of
that slice whenever it is in bounds. -/
def pathIndexKey (raw : List Char) : List Char :=
  let start := if raw.take 1 = ['^'] then 1 else 0
  let stop := if raw.drop (raw.length - 1) = ['$'] then raw.length - 1 else raw.length
  (raw.take stop).drop start

/-- The same key computation with Go's slice-bounds checks made explicit:
`none` exactly when one of `rawRegex[:1]`, `rawRegex[end-1:]`,
`rawRegex[start:end]` would panic (index out of range). -/
def pathIndexKeyChecked (raw : List Char) : Option (List Char) :=
  if raw.length < 1 then none
  else
    let start := if raw.take 1 = ['^'] then 1 else 0
    let stop := if raw.drop (raw.length - 1) = ['$'] then raw.length - 1 else raw.length
    if start ≤ stop then some ((raw.take stop).drop start) else none

/-- The specification's description of the key: remove at most one leading
`^` and at most one trailing `$` from the raw regex string. -/
def stripAnchorsSpec (raw : List Char) : List Char :=
  let s1 := if raw.head? = some '^' then raw.tail else raw
  if raw.getLast? = some '$' then s1.dropLast else s1

/-! ### The engine state

The engine (engine package) owns the global rule list; the three index
singletons (PathIndex, MethodsIndex, IPsIndex) are inlined as fields, their
buckets holding integer handles into `rules`. -/

/-- The three index singletons of the engine, named as their Go `Name()`
identifiers Path / Methods / Network. -/
inductive IndexKind
  | path
  | methods
  | ips
deriving DecidableEq, Repr

/-- Go constant slice `index.HTTPMethods`. -/
def HTTPMethods : List String :=
  ["GET", "POST", "PUT", "DELETE", "HEAD", "OPTIONS", "TRACE", "PATCH", "CONNECT"]

/-- Models `engine.RulesEngine` together with the state of its three index
singletons (index/path.go, the MethodsIndex, index/ips.go). -/
structure Engine where
  rules : List Rule
  indices : List IndexKind
  pathPaths : List (List Char × List Nat)
  pathHits : Nat
  methodsBuckets : List (String × List Nat)
  methodsHits : Nat
  ipsRules : List Nat
  ipsNets : NetSet
  ipsHits : Nat
  optimize : Bool

/-- Models `NewRulesEngine`: empty rules and indices, `optimize` off,
fresh index singletons (the MethodsIndex map is pre-seeded with the nine
HTTP methods). -/
def newRulesEngine : Engine :=
  { rules := [], indices := [], pathPaths := [], pathHits := 0,
    methodsBuckets := HTTPMethods.map (fun m => (m, [])), methodsHits := 0,
    ipsRules := [], ipsNets := [], ipsHits := 0, optimize := false }

/-- Models `PathIndex.IndexRule`: a rule without a path is refused;
otherwise the rule (its handle `h`) is filed under the stripped raw regex
and the call returns true. -/
def pathIndexRule (e : Engine) (h : Nat) (r : Rule) : Bool × Engine :=
  match r.path with
  | none => (false, e)
  | some p =>
    (true, { e with pathPaths := assocAppend e.pathPaths (pathIndexKey p.raw) h })

/-- Models `MethodsIndex.IndexRule`: a rule without methods is refused;
otherwise the rule is filed under every one of its methods that occurs in
`HTTPMethods`. -/
def methodsIndexRule (e : Engine) (h : Nat) (r : Rule) : Bool × Engine :=
  match r.methods with
  | none => (false, e)
  | some ms =>
    let file := fun bs m => if HTTPMethods.contains m then assocAppend bs m h else bs
    (true, { e with methodsBuckets := ms.foldl file e.methodsBuckets })

/-- Models `IPsIndex.IndexRule`: a rule without an `ips` set is refused;
otherwise its handle joins the index's rule list and each of its nets is
added to the accumulator NetSet. -/
def ipsIndexRule (e : Engine) (h : Nat) (r : Rule) : Bool × Engine :=
  match r.ips with
  | none => (false, e)
  | some ns =>
    (true, { e with ipsRules := e.ipsRules ++ [h], ipsNets := e.ipsNets ++ ns })

/-- Models `RulesEngine.activateIndex`: append the index unless an index of
the same name is already active. -/
def activateIndex (e : Engine) (k : IndexKind) : Engine :=
  if e.indices.contains k then e else { e with indices := e.indices ++ [k] }

/-- The `if index.IndexRule(rule) { engine.activateIndex(index) }` step of
`AddRule`: activate the index exactly when it accepted the rule. -/
def offerIndex (accepted : Bool) (e : Engine) (k : IndexKind) : Engine :=
  if accepted then activateIndex e k else e

/-- Models `RulesEngine.AddRule`: append to the global list, offer the rule
to the three index singletons in order (path, methods, ips), activating each
index that accepts, then flip `optimize` once more than 5 rules are held. -/
def addRule (e : Engine) (r : Rule) : Engine :=
  let h := e.rules.length
  let e1 := { e with rules := e.rules ++ [r] }
  let pr := pathIndexRule e1 h r
  let e2 := offerIndex pr.1 pr.2 IndexKind.path
  let mr := methodsIndexRule e2 h r
  let e3 := offerIndex mr.1 mr.2 IndexKind.methods
  let ir := ipsIndexRule e3 h r
  let e4 := offerIndex ir.1 ir.2 IndexKind.ips
  if e4.rules.length > 5 then { e4 with optimize := true } else e4

/-- Models the `MatchRules` method of the active index `k` (index/path.go,
the MethodsIndex, index/ips.go): the candidate bucket for the request plus
the index's hit-counter update (PathIndex counts when the key is present,
MethodsIndex when the bucket is non-nil, IPsIndex when the client IP
resolves into the accumulator set; resolution failure or a nil address give
an empty candidate list). -/
def idxMatchRules (e : Engine) (k : IndexKind) (req : Request) :
    List Nat × Engine :=
  match k with
  | .path =>
    match assocLookup e.pathPaths req.path with
    | some bucket => (bucket, { e with pathHits := e.pathHits + 1 })
    | none => ([], e)
  | .methods =>
    let bucket := (assocLookup e.methodsBuckets req.method).getD []
    (bucket, if bucket.isEmpty then e else { e with methodsHits := e.methodsHits + 1 })
  | .ips =>
    match req.clientIP with
    | .error _ => ([], e)
    | .ok none => ([], e)
    | .ok (some a) =>
      if netSetHas e.ipsNets a then
        (e.ipsRules, { e with ipsHits := e.ipsHits + 1 })
      else ([], e)

/-- The `Hits()` reading of the index `k` on the engine. -/
def idxHits (e : Engine) (k : IndexKind) : Nat :=
  match k with
  | .path => e.pathHits
  | .methods => e.methodsHits
  | .ips => e.ipsHits

/-- Writes a (reordered) bucket back into the storage it was read from by
`idxMatchRules` (in Go the swap happens in place on the shared slice). -/
def setBucket (e : Engine) (k : IndexKind) (req : Request) (b : List Nat) :
    Engine :=
  match k with
  | .path => { e with pathPaths := assocSet e.pathPaths req.path b }
  | .methods => { e with methodsBuckets := assocSet e.methodsBuckets req.method b }
  | .ips => { e with ipsRules := b }

/-- Increment the `hits` of the rule at handle `h` (the effect of a
successful `Rule.Allow`/`Rule.Deny` through a shared pointer). -/
def bumpHits : List Rule → Nat → List Rule
  | [], _ => []
  | r :: rest, 0 => { r with hits := r.hits + 1 } :: rest
  | r :: rest, n + 1 => r :: bumpHits rest n

/-- The `Hits()` of the rule at handle `h` (0 for an out-of-range handle,
which no engine-reachable state produces). -/
def ruleHitsAt (rules : List Rule) (h : Nat) : Nat :=
  match rules.get? h with
  | some r => r.hits
  | none => 0

/-- Swap the adjacent elements at positions `n` and `n+1`. -/
def swapAdj {α : Type} : List α → Nat → List α
  | x :: y :: rest, 0 => y :: x :: rest
  | x :: rest, n + 1 => x :: swapAdj rest n
  | l, _ => l

/-- Models `prioritizeRule` (rule.go): after the candidate at position `i`
matched, swap it with its predecessor when the predecessor has strictly
fewer hits.  Call sites guarantee `i` is in range; the hits of out-of-range
handles read as 0. -/
def prioritizeRule (rules : List Rule) (bucket : List Nat) (i : Nat) :
    List Nat :=
  if 0 < i ∧ ruleHitsAt rules (bucket.getD (i - 1) 0) < ruleHitsAt rules (bucket.getD i 0) then
    swapAdj bucket (i - 1)
  else bucket

/-- One in-place pairwise pass of `prioritizeIndices` (rule.go), written
with the running element made explicit: `bubbleStep f x l` is the Go loop
on `x :: l` where `x` is the element currently sitting at position
`i - 1`.  When `f x < f (head l)` Go swaps, so the head moves left and `x`
stays the running element; otherwise the head becomes the running element. -/
def bubbleStep {α : Type} (f : α → Nat) : α → List α → List α
  | x, [] => [x]
  | x, y :: rest => if f x < f y then y :: bubbleStep f x rest else x :: bubbleStep f y rest

/-- Models `RulesEngine.prioritizeIndices`: the single pairwise pass over
the active indices, ordered by their hit counters. -/
def prioritizeIndices (e : Engine) : Engine :=
  match e.indices with
  | [] => e
  | k :: rest => { e with indices := bubbleStep (idxHits e) k rest }

/-- The per-bucket loop of `RulesEngine.check`: iterate the candidate
handles at successive positions, skipping ids already in `checked`,
answering `(some (i, h), _)` on the first handle `h` (at bucket position
`i`) whose rule matches, and otherwise `(none, checked')` with every failed
candidate's id recorded.  Out-of-range handles (impossible in engine
states) are skipped. -/
def scanBucket (rules : List Rule) (pol : String) (req : Request) :
    List Nat → Nat → List String → Option (Nat × Nat) × List String
  | [], _, checked => (none, checked)
  | h :: rest, i, checked =>
    match rules.get? h with
    | none => scanBucket rules pol req rest (i + 1) checked
    | some r =>
      if checked.contains r.id then scanBucket rules pol req rest (i + 1) checked
      else if r.cond pol req then (some (i, h), checked)
      else scanBucket rules pol req rest (i + 1) (r.id :: checked)

/-- The index phase of `RulesEngine.check`: for each active index fetch its
candidates (updating the index hit counter), scan them with the shared
`checked` memo; on a match increment the rule's hits, bubble it one step in
its bucket, and stop with true. -/
def runIndices (pol : String) (req : Request) :
    Engine → List IndexKind → List String → Bool × Engine × List String
  | e, [], checked => (false, e, checked)
  | e, k :: rest, checked =>
    let mr := idxMatchRules e k req
    match scanBucket mr.2.rules pol req mr.1 0 checked with
    | (some ih, _) =>
      let rules2 := bumpHits mr.2.rules ih.2
      (true, setBucket { mr.2 with rules := rules2 } k req
        (prioritizeRule rules2 mr.1 ih.1), checked)
    | (none, checked') => runIndices pol req mr.2 rest checked'

/-- The global fallback sweep of `RulesEngine.check`: iterate the rules in
insertion order, skip ids in `checked`, increment the hits of the first
match and stop with true, never reordering the global list. -/
def sweep (pol : String) (req : Request) (checked : List String) :
    List Rule → Bool × List Rule
  | [] => (false, [])
  | r :: rest =>
    if checked.contains r.id then
      let res := sweep pol req checked rest
      (res.1, r :: res.2)
    else if r.cond pol req then (true, { r with hits := r.hits + 1 } :: rest)
    else
      let res := sweep pol req checked rest
      (res.1, r :: res.2)

/-- The `optimize == false` branch of `RulesEngine.check`: the plain linear
scan of the rules in insertion order (the checker increments the hits of
the first match). -/
def linearScan (pol : String) (req : Request) : List Rule → Bool × List Rule
  | [] => (false, [])
  | r :: rest =>
    if r.cond pol req then (true, { r with hits := r.hits + 1 } :: rest)
    else
      let res := linearScan pol req rest
      (res.1, r :: res.2)

/-- Models `RulesEngine.check` (rule.go) for the checker selected by `pol`
(`Rule.Allow` for ALLOW, `Rule.Deny` for DENY), evaluated single-threaded.
`reorderDraw` is the outcome of the `rand.Intn(100) == 1` draw. -/
def check (e : Engine) (req : Request) (pol : String) (reorderDraw : Bool) :
    Bool × Engine :=
  if e.optimize = false then
    let res := linearScan pol req e.rules
    (res.1, { e with rules := res.2 })
  else
    let e1 := if reorderDraw then prioritizeIndices e else e
    match runIndices pol req e1 e1.indices [] with
    | (true, e2, _) => (true, e2)
    | (false, e2, checked) =>
      let res := sweep pol req checked e2.rules
      (res.1, { e2 with rules := res.2 })

/-- Models `RulesEngine.Allow`: `check` with the `Rule.Allow` checker. -/
def engineAllow (e : Engine) (req : Request) (reorderDraw : Bool) : Bool × Engine :=
  check e req ALLOW reorderDraw

/-- Models `RulesEngine.Deny`: `check` with the `Rule.Deny` checker. -/
def engineDeny (e : Engine) (req : Request) (reorderDraw : Bool) : Bool × Engine :=
  check e req DENY reorderDraw

/-- The operations performed on an engine after construction: `AddRule`
calls and `Allow`/`Deny` evaluations (the latter with their random draw). -/
inductive Op
  | add (r : Rule)
  | chk (req : Request) (pol : String) (draw : Bool)

/-- One engine operation. -/
def step (e : Engine) : Op → Engine
  | .add r => addRule e r
  | .chk req pol draw => (check e req pol draw).2

/-- The rules added by a sequence of operations, in order. -/
def addsOf (ops : List Op) : List Rule :=
  ops.filterMap (fun o => match o with | .add r => some r | .chk _ _ _ => none)

/-- A rule with its mutable hit counter blanked, for comparing rule lists
up to the hit statistics. -/
def eraseHits (r : Rule) : Rule := { r with hits := 0 }

/-! ### CSRF cookie (pkg/cookies/csrf.go)

The two nonce fields of the `csrf` struct.  The cookie options, cipher,
HMAC and msgpack codec live outside the sources at hand and are modelled
from the specification where marked. -/

/-- Models the `csrf` struct of pkg/cookies/csrf.go (nonce fields only;
the cookie options travel separately). -/
structure CSRFData where
  OAuthState : List Nat
  OIDCNonce : List Nat
deriving DecidableEq, Repr

/-- Modelled from the spec: `encryption.Nonce` draws 32 bytes from a
cryptographic random source.  The outcome of one draw is supplied as the
oracle argument: `none` is a failed draw, `some f` the 32 drawn bytes. -/
def nonceDraw (draw : Option (Fin 32 → Nat)) : Except Unit (List Nat) :=
  match draw with
  | none => .error ()
  | some f => .ok (List.ofFn f)

/-- Models `NewCSRF` (csrf.go): draw the OAuth state nonce, then the OIDC
nonce, failing as soon as a draw fails. -/
def NewCSRF (d1 d2 : Option (Fin 32 → Nat)) : Except Unit CSRFData :=
  match nonceDraw d1 with
  | .error e => .error e
  | .ok state =>
    match nonceDraw d2 with
    | .error e => .error e
    | .ok nonce => .ok { OAuthState := state, OIDCNonce := nonce }

/-- Modelled from the spec: the msgpack encoding of the `csrf` struct is a
tagged binary encoding with field tags `s` (state) and `n` (nonce), empty
fields omitted. -/
def msgpackMarshal (c : CSRFData) : List (Char × List Nat) :=
  (if c.OAuthState ≠ [] then [('s', c.OAuthState)] else []) ++
    (if c.OIDCNonce ≠ [] then [('n', c.OIDCNonce)] else [])

/-- Modelled from the spec: the msgpack decoding reads the `s` and `n`
tagged fields, absent fields staying empty. -/
def msgpackUnmarshal (d : List (Char × List Nat)) : CSRFData :=
  { OAuthState := (assocLookup d 's').getD [],
    OIDCNonce := (assocLookup d 'n').getD [] }

/-- The signed cookie value: payload (the ciphertext, of abstract type
`β`), creation timestamp, and HMAC over (name, payload, timestamp). -/
structure SignedCookieValue (β : Type) where
  payload : β
  ts : Nat
  sig : List Nat

/-- Modelled from the spec: `encryption.SignedValue` wraps the payload
with its timestamp and the HMAC (the `mac` oracle, keyed by the secret,
covering the cookie name, payload and timestamp). -/
def SignedValue {β : Type} (mac : String → String → β → Nat → List Nat)
    (secret name : String) (value : β) (now : Nat) : SignedCookieValue β :=
  { payload := value, ts := now, sig := mac secret name value now }

/-- Modelled from the spec: `encryption.Validate` recomputes the HMAC in
constant time and checks `now - timestamp ≤ expire`, yielding the payload
only when both hold. -/
def Validate {β : Type} (mac : String → String → β → Nat → List Nat)
    (secret name : String) (expire now : Nat) (v : SignedCookieValue β) :
    Option β :=
  if v.sig = mac secret name v.payload v.ts ∧ now - v.ts ≤ expire then
    some v.payload
  else none

/-- Models `csrf.encodeCookie` (csrf.go): msgpack-marshal the token,
encrypt it (`enc`, the CFB cipher under the cookie secret), and wrap the
ciphertext in a signed value under the CSRF cookie name. -/
def encodeCookie {β : Type} (enc : List (Char × List Nat) → β)
    (mac : String → String → β → Nat → List Nat) (secret name : String)
    (c : CSRFData) (now : Nat) : SignedCookieValue β :=
  SignedValue mac secret name (enc (msgpackMarshal c)) now

/-- Models `decodeCSRFCookie` (csrf.go): validate the signature within the
expiry window, decrypt (`dec`, failing with `none` on a cipher error), and
unmarshal the plaintext. -/
def decodeCSRFCookie {β : Type} (dec : β → Option (List (Char × List Nat)))
    (mac : String → String → β → Nat → List Nat) (secret name : String)
    (expire now : Nat) (v : SignedCookieValue β) : Option CSRFData :=
  match Validate mac secret name expire now v with
  | none => none
  | some val =>
    match dec val with
    | none => none
    | some d => some (msgpackUnmarshal d)

/-! ### SecretBytes (package utils) -/

/-- Models `utils.addPadding`: append `=` bytes (0x3D = 61) until the
length is a multiple of 4 (3, 2, 1 of them for length 1, 2, 3 mod 4). -/
def addPadding (s : List Nat) : List Nat :=
  if s.length % 4 = 1 then s ++ [61, 61, 61]
  else if s.length % 4 = 2 then s ++ [61, 61]
  else if s.length % 4 = 3 then s ++ [61]
  else s

/-- The base64url alphabet value of a byte (`A-Z a-z 0-9 - _`), `none` for
a byte outside the alphabet. -/
def b64Val (b : Nat) : Option Nat :=
  if 65 ≤ b ∧ b ≤ 90 then some (b - 65)
  else if 97 ≤ b ∧ b ≤ 122 then some (b - 97 + 26)
  else if 48 ≤ b ∧ b ≤ 57 then some (b - 48 + 52)
  else if b = 45 then some 62
  else if b = 95 then some 63
  else none

/-- Models `base64.URLEncoding.DecodeString` on the padded input: decode
quartet by quartet; a quartet ending in `==` or `=` must be final and
yields 1 or 2 bytes; input whose length is not a multiple of 4, a
misplaced `=`, or a byte outside the alphabet is an error (`none`). -/
def b64Decode : List Nat → Option (List Nat)
  | [] => some []
  | a :: b :: c :: d :: rest =>
    match b64Val a, b64Val b with
    | some va, some vb =>
      if c = 61 then
        if d = 61 ∧ rest = [] then some [va * 4 + vb / 16] else none
      else
        match b64Val c with
        | some vc =>
          if d = 61 then
            if rest = [] then some [va * 4 + vb / 16, (vb % 16) * 16 + vc / 4]
            else none
          else
            match b64Val d with
            | some vd =>
              match b64Decode rest with
              | some tail =>
                some ([va * 4 + vb / 16, (vb % 16) * 16 + vc / 4,
                  (vc % 4) * 64 + vd] ++ tail)
              | none => none
            | none => none
        | none => none
    | _, _ => none
  | _ => none

/-- Models `utils.SecretBytes`: base64url-decode the padded secret; on
success run `addPadding` over the decoded bytes and return that; on a
decode error return the secret bytes unchanged. -/
def SecretBytes (secret : List Nat) : List Nat :=
  match b64Decode (addPadding secret) with
  | some b => addPadding b
  | none => secret

/-! ### Concrete fixtures used by witnesses -/

/-- A rule carrying an `ips` restriction, for exercising the unresolvable
client-IP path. -/
def wRuleIPs : Rule :=
  { id := "ipr", policy := "ALLOW", path := none, methods := none,
    ips := some [fun a => a < 100], hits := 0 }

/-- A request whose client-IP resolution failed. -/
def wReqErr : Request :=
  { path := ['/', 'x'], method := "GET", clientIP := .error () }

/-- Six concrete rules (enough to flip `optimize`) activating all three
indices. -/
def wEngineRules : List Rule :=
  [ { id := "1", policy := "ALLOW",
      path := some { raw := ['^', '/', 'a', '$'],
                     compiled := fun s => s = ['/', 'a'] },
      methods := none, ips := none, hits := 0 },
    { id := "2", policy := "ALLOW", path := none, methods := some ["GET"],
      ips := none, hits := 0 },
    { id := "3", policy := "DENY",
      path := some { raw := ['^', '/', 'b', '$'],
                     compiled := fun s => s = ['/', 'b'] },
      methods := none, ips := none, hits := 0 },
    { id := "4", policy := "ALLOW", path := none, methods := none,
      ips := some [fun a => a < 10], hits := 0 },
    { id := "5", policy := "ALLOW",
      path := some { raw := ['^', '/', 'c', '$'],
                     compiled := fun s => s = ['/', 'c'] },
      methods := none, ips := none, hits := 0 },
    { id := "6", policy := "ALLOW", path := none, methods := none,
      ips := none, hits := 0 } ]

/-- The engine holding the six fixture rules (so `optimize` is on). -/
def wEngine : Engine := List.foldl addRule newRulesEngine wEngineRules

/-- A concrete request that reaches the fixture engine's indices. -/
def wReq : Request :=
  { path := ['/', 'b'], method := "POST", clientIP := .ok (some 3) }

/-! ### Theorems -/

/-- `Rule.cond` unfolded to the conjunction of the policy test and the
three field predicates. -/
theorem rule_cond_eq_true_iff (r : Rule) (pol : String) (req : Request) :
    r.cond pol req = true ↔
      (r.policy = pol ∧ r.checkPath req = true ∧ r.checkMethods req = true ∧
        r.checkIPs req = true) := by
  simp [Rule.cond, Bool.and_eq_true, and_assoc, beq_iff_eq]

/-- Claim C2: `Rule.Allow` returns true iff the policy is ALLOW and the
three field predicates hold (each vacuously true when its field is absent),
`Rule.Deny` likewise with DENY, and on a true result the hits counter grows
by exactly one, otherwise it is unchanged. -/
theorem rule_allow_deny_spec (r : Rule) (req : Request) :
    ((r.Allow req).1 = true ↔
      (r.policy = ALLOW ∧ r.checkPath req = true ∧ r.checkMethods req = true ∧
        r.checkIPs req = true)) ∧
    ((r.Deny req).1 = true ↔
      (r.policy = DENY ∧ r.checkPath req = true ∧ r.checkMethods req = true ∧
        r.checkIPs req = true)) ∧
    (r.Allow req).2.hits = r.hits + (if (r.Allow req).1 then 1 else 0) ∧
    (r.Deny req).2.hits = r.hits + (if (r.Deny req).1 then 1 else 0) := by
  refine ⟨?_, ?_, ?_, ?_⟩
  · rw [← rule_cond_eq_true_iff]
    unfold Rule.Allow
    by_cases h : r.cond ALLOW req <;> simp [h]
  · rw [← rule_cond_eq_true_iff]
    unfold Rule.Deny
    by_cases h : r.cond DENY req <;> simp [h]
  · unfold Rule.Allow
    by_cases h : r.cond ALLOW req <;> simp [h]
  · unfold Rule.Deny
    by_cases h : r.cond DENY req <;> simp [h]

/-- Claim C3: when a rule has an `ips` set and the client IP cannot be
resolved (parser error or nil address), `Rule.Allow` and `Rule.Deny` are
false, and `IPsIndex.MatchRules` yields no candidates: resolution failure
never produces a policy match. -/
theorem clientIP_unresolvable_safe (r : Rule) (ns : NetSet) (req : Request)
    (e : Engine) (hips : r.ips = some ns)
    (hfail : req.clientIP = .error () ∨ req.clientIP = .ok none) :
    (r.Allow req).1 = false ∧ (r.Deny req).1 = false ∧
      (idxMatchRules e IndexKind.ips req).1 = [] := by
  have hci : r.checkIPs req = false := by
    unfold Rule.checkIPs
    rw [hips]
    rcases hfail with h | h <;> rw [h]
  have hcond : ∀ pol, r.cond pol req = false := by
    intro pol
    simp [Rule.cond, hci]
  refine ⟨?_, ?_, ?_⟩
  · simp [Rule.Allow, hcond]
  · simp [Rule.Deny, hcond]
  · rcases hfail with h | h <;> simp [idxMatchRules, h]

/-- Claim C3 witness: a concrete ips-bearing rule and a request with a
failed client-IP resolution. -/
theorem clientIP_unresolvable_safe_witness :
    (wRuleIPs.Allow wReqErr).1 = false ∧ (wRuleIPs.Deny wReqErr).1 = false ∧
      (idxMatchRules newRulesEngine IndexKind.ips wReqErr).1 = [] :=
  clientIP_unresolvable_safe wRuleIPs [fun a => a < 100] wReqErr newRulesEngine
    rfl (Or.inl rfl)

/-- Claim C9: `NewCSRF` fails exactly when one of the two nonce draws
fails; on success the token carries the first draw as OAuthState and the
second as OIDCNonce, each 32 bytes long. -/
theorem newCSRF_spec (d1 d2 : Option (Fin 32 → Nat)) :
    ((∃ c, NewCSRF d1 d2 = .ok c) ↔ (d1.isSome = true ∧ d2.isSome = true)) ∧
    (∀ f1 f2, d1 = some f1 → d2 = some f2 →
      NewCSRF d1 d2 =
          .ok { OAuthState := List.ofFn f1, OIDCNonce := List.ofFn f2 } ∧
        (List.ofFn f1).length = 32 ∧ (List.ofFn f2).length = 32) := by
  constructor
  · cases d1 <;> cases d2 <;> simp [NewCSRF, nonceDraw]
  · intro f1 f2 h1 h2
    subst h1
    subst h2
    exact ⟨rfl, by simp, by simp⟩

/-- Claim C9 witness: two concrete successful draws. -/
theorem newCSRF_spec_witness :
    NewCSRF (some fun _ => 7) (some fun _ => 9) =
        .ok { OAuthState := List.ofFn fun _ : Fin 32 => 7,
              OIDCNonce := List.ofFn fun _ : Fin 32 => 9 } ∧
      (List.ofFn fun _ : Fin 32 => (7 : Nat)).length = 32 ∧
      (List.ofFn fun _ : Fin 32 => (9 : Nat)).length = 32 :=
  (newCSRF_spec (some fun _ => 7) (some fun _ => 9)).2 _ _ rfl rfl

/-- Claim C8: with a cipher that inverts on the cookie secret, a CSRF token
with non-empty nonces survives the encode/decode round trip when decoded
within the expiry window: signature validation, decryption and unmarshal
succeed and reproduce both nonce fields. -/
theorem csrf_cookie_roundtrip {β : Type} (enc : List (Char × List Nat) → β)
    (dec : β → Option (List (Char × List Nat)))
    (mac : String → String → β → Nat → List Nat) (secret name : String)
    (expire tEnc tDec : Nat) (state nonce : List Nat)
    (hdec : ∀ x, dec (enc x) = some x)
    (hs : state ≠ []) (hn : nonce ≠ [])
    (hexp : tDec - tEnc ≤ expire) :
    decodeCSRFCookie dec mac secret name expire tDec
        (encodeCookie enc mac secret name
          { OAuthState := state, OIDCNonce := nonce } tEnc) =
      some { OAuthState := state, OIDCNonce := nonce } := by
  have hsn : ('s' : Char) ≠ 'n' := by decide
  unfold decodeCSRFCookie encodeCookie SignedValue Validate
  simp only [hexp, and_true, eq_self_iff_true, if_true]
  rw [hdec]
  simp [msgpackMarshal, msgpackUnmarshal, hs, hn, assocLookup, hsn]

/-- Claim C8 witness: the identity cipher, a trivial HMAC, and the token
([1], [2]) encoded at time 0 and decoded at time 5 with expiry 10. -/
theorem csrf_cookie_roundtrip_witness :
    decodeCSRFCookie (β := List (Char × List Nat)) some
        (fun _ _ _ _ => []) "secret" "c_csrf" 10 5
        (encodeCookie id (fun _ _ _ _ => []) "secret" "c_csrf"
          { OAuthState := [1], OIDCNonce := [2] } 0) =
      some { OAuthState := [1], OIDCNonce := [2] } :=
  csrf_cookie_roundtrip id some (fun _ _ _ _ => []) "secret" "c_csrf" 10 0 5
    [1] [2] (fun _ => rfl) (by decide) (by decide) (by decide)

/-- The padded string always has length a multiple of 4. -/
theorem addPadding_length_mod (s : List Nat) : (addPadding s).length % 4 = 0 := by
  unfold addPadding
  split_ifs with h1 h2 h3 <;> (try simp [List.length_append]) <;> omega

/-- Claim C10 counterexample: the sixteen-byte secret "AAAAAAAAAAAAAAAA"
base64url-decodes successfully to twelve zero bytes, whose length is a
multiple of 4, and `SecretBytes` returns exactly those decoded bytes as-is
(no `=` bytes appended, no differing tail); likewise the empty secret
decodes successfully and is returned byte-for-byte. -/
theorem secretBytes_counterexample :
    b64Decode (addPadding (List.replicate 16 65)) = some (List.replicate 12 0) ∧
      SecretBytes (List.replicate 16 65) = List.replicate 12 0 ∧
      b64Decode (addPadding ([] : List Nat)) = some [] ∧
      SecretBytes ([] : List Nat) = [] := by
  decide

/-- Claim C10 (amended): for every secret that base64url-decodes after
padding repair, `SecretBytes` runs the padding repair over the decoded
bytes: when the decoded length is 1, 2 or 3 mod 4 it appends 3, 2 or 1
ASCII `=` bytes (0x3D), yielding a key of length a multiple of 4; when the
decoded length is already a multiple of 4 the decoded bytes are returned
as-is; secrets that fail base64 decoding are returned byte-for-byte. -/
theorem secretBytes_padding_spec (secret : List Nat) :
    (∀ b, b64Decode (addPadding secret) = some b →
      SecretBytes secret = addPadding b ∧
        (SecretBytes secret).length % 4 = 0 ∧
        (b.length % 4 = 1 → SecretBytes secret = b ++ [61, 61, 61]) ∧
        (b.length % 4 = 2 → SecretBytes secret = b ++ [61, 61]) ∧
        (b.length % 4 = 3 → SecretBytes secret = b ++ [61]) ∧
        (b.length % 4 = 0 → SecretBytes secret = b)) ∧
    (b64Decode (addPadding secret) = none → SecretBytes secret = secret) := by
  constructor
  · intro b hb
    have hsb : SecretBytes secret = addPadding b := by
      unfold SecretBytes
      rw [hb]
    refine ⟨hsb, ?_, ?_, ?_, ?_, ?_⟩
    · rw [hsb]
      exact addPadding_length_mod b
    · intro h
      rw [hsb]
      unfold addPadding
      rw [if_pos h]
    · intro h
      rw [hsb]
      unfold addPadding
      rw [if_neg (by omega), if_pos h]
    · intro h
      rw [hsb]
      unfold addPadding
      rw [if_neg (by omega), if_neg (by omega), if_pos h]
    · intro h
      rw [hsb]
      unfold addPadding
      rw [if_neg (by omega), if_neg (by omega), if_neg (by omega)]
  · intro h
    unfold SecretBytes
    rw [h]

/-- Claim C10 witness: the amended statement applied to the concrete
sixteen-byte secret, whose decoded bytes have length 12 ≡ 0 mod 4. -/
theorem secretBytes_padding_spec_witness :
    SecretBytes (List.replicate 16 65) = List.replicate 12 0 ∧
      (SecretBytes (List.replicate 16 65)).length % 4 = 0 :=
  ⟨((secretBytes_padding_spec (List.replicate 16 65)).1 (List.replicate 12 0)
      (by decide)).2.2.2.2.2 (by decide),
    ((secretBytes_padding_spec (List.replicate 16 65)).1 (List.replicate 12 0)
      (by decide)).2.1⟩

/-- Dropping all but the last element leaves exactly the last element. -/
theorem drop_length_sub_one {α : Type} (l : List α) :
    l.drop (l.length - 1) = l.getLast?.toList := by
  induction l with
  | nil => rfl
  | cons x t ih =>
    cases t with
    | nil => rfl
    | cons y t' =>
      have hlen : (x :: y :: t').length - 1 = t'.length + 1 := by simp
      rw [hlen, List.drop_succ_cons, List.getLast?_cons_cons]
      have hlen' : t'.length = (y :: t').length - 1 := by simp
      rw [hlen']
      exact ih

/-- Go's `s[:1] == "^"` in terms of the head of the char list. -/
theorem take_one_eq {α : Type} (l : List α) (c : α) :
    l.take 1 = [c] ↔ l.head? = some c := by
  cases l <;> simp

/-- Go's `s[len-1:] == "$"` in terms of the last element of the char
list. -/
theorem drop_last_eq {α : Type} (l : List α) (c : α) :
    l.drop (l.length - 1) = [c] ↔ l.getLast? = some c := by
  rw [drop_length_sub_one]
  cases h : l.getLast? <;> simp

/-- The slice `rawRegex[start:end]` computed by `PathIndex.IndexRule`
equals the specification's strip: remove at most one leading `^` and at
most one trailing `$`. -/
theorem pathIndexKey_eq_strip (raw : List Char) :
    pathIndexKey raw = stripAnchorsSpec raw := by
  simp only [pathIndexKey, stripAnchorsSpec, take_one_eq, drop_last_eq]
  split_ifs with h1 h2 h2'
  · rw [List.drop_take, List.drop_one, List.dropLast_eq_take, List.length_tail]
  · rw [List.take_length, List.drop_one]
  · rw [List.drop_zero, List.dropLast_eq_take]
  · rw [List.take_length, List.drop_zero]

/-- A successful association-list lookup is a member of the list. -/
theorem assocLookup_mem {κ α : Type} [DecidableEq κ] :
    ∀ (l : List (κ × α)) (k : κ) (v : α),
      assocLookup l k = some v → (k, v) ∈ l := by
  intro l
  induction l with
  | nil => intro k v h; simp [assocLookup] at h
  | cons p rest ih =>
    intro k v h
    obtain ⟨k', v'⟩ := p
    unfold assocLookup at h
    by_cases hk : k' = k
    · rw [if_pos hk] at h
      subst hk
      cases h
      exact List.mem_cons_self _ _
    · rw [if_neg hk] at h
      exact List.mem_cons_of_mem _ (ih k v h)

/-- Claim C5: `PathIndex.IndexRule` files a path-bearing rule under the key
obtained by stripping at most one leading `^` and one trailing `$` from the
raw regex and returns true; `PathIndex.MatchRules` returns exactly the
bucket keyed by the request path (empty when no such key exists) and
increments the index hits iff that bucket is non-empty. -/
theorem pathIndex_spec :
    (∀ raw : List Char, pathIndexKey raw = stripAnchorsSpec raw) ∧
    (∀ (e : Engine) (h : Nat) (r : Rule) (p : PathRegex), r.path = some p →
      pathIndexRule e h r =
        (true,
          { e with pathPaths := assocAppend e.pathPaths (pathIndexKey p.raw) h })) ∧
    (∀ (e : Engine) (req : Request),
      (∀ k b, (k, b) ∈ e.pathPaths → b ≠ []) →
      (idxMatchRules e IndexKind.path req).1 =
          (assocLookup e.pathPaths req.path).getD [] ∧
        (idxMatchRules e IndexKind.path req).2.pathHits =
          e.pathHits +
            (if (idxMatchRules e IndexKind.path req).1 = [] then 0 else 1)) := by
  refine ⟨pathIndexKey_eq_strip, ?_, ?_⟩
  · intro e h r p hp
    unfold pathIndexRule
    rw [hp]
  · intro e req hwf
    unfold idxMatchRules
    cases hlk : assocLookup e.pathPaths req.path with
    | none => simp
    | some b =>
      have hb : b ≠ [] := hwf req.path b (assocLookup_mem _ _ _ hlk)
      simp [hb]

/-- Claim C5 witness: the concrete raw regex `^/foo$` stripped to `/foo`,
filed into a fresh path index and looked up again. -/
theorem pathIndex_spec_witness :
    pathIndexKey ('^' :: '/' :: 'f' :: 'o' :: 'o' :: ['$']) =
        stripAnchorsSpec ('^' :: '/' :: 'f' :: 'o' :: 'o' :: ['$']) ∧
      pathIndexRule newRulesEngine 0
          { id := "p", policy := "ALLOW",
            path := some { raw := '^' :: '/' :: 'f' :: 'o' :: 'o' :: ['$'],
                           compiled := fun _ => true },
            methods := none, ips := none, hits := 0 } =
        (true,
          { newRulesEngine with
              pathPaths :=
                assocAppend newRulesEngine.pathPaths
                  (pathIndexKey ('^' :: '/' :: 'f' :: 'o' :: 'o' :: ['$'])) 0 }) ∧
      (idxMatchRules newRulesEngine IndexKind.path
            { path := ['/'], method := "GET", clientIP := .ok none }).1 =
        (assocLookup newRulesEngine.pathPaths ['/']).getD [] :=
  ⟨pathIndex_spec.1 _, pathIndex_spec.2.1 _ 0 _ _ rfl,
    (pathIndex_spec.2.2 newRulesEngine
        { path := ['/'], method := "GET", clientIP := .ok none }
        (by intro k b hb; simp [newRulesEngine] at hb)).1⟩

/-- `buildPathRegex` only produces present paths with a non-empty raw
regex. -/
theorem buildPathRegex_raw (compile : List Char → Option (List Char → Bool))
    (path : List Char) (pr : Option PathRegex)
    (hb : buildPathRegex compile path = .ok pr) :
    ∀ p, pr = some p → p.raw ≠ [] := by
  intro p hp
  unfold buildPathRegex at hb
  by_cases hp0 : path = []
  · rw [if_pos hp0] at hb
    cases hb
    cases hp
  · rw [if_neg hp0] at hb
    cases hc : compile path with
    | none => rw [hc] at hb; cases hb
    | some c =>
      rw [hc] at hb
      cases hb
      cases hp
      exact hp0

/-- Claim C6: under the precondition that the raw path regex is non-empty,
every slice taken by `PathIndex.IndexRule` is in bounds (the bounds-checked
key computation succeeds and agrees with the unchecked one) — including
the length-1 regexes `^` and `$`; and `NewRule` guarantees the
precondition, an empty path string producing an absent path. -/
theorem pathIndex_slicing_safe :
    (∀ raw : List Char, raw ≠ [] →
      pathIndexKeyChecked raw = some (pathIndexKey raw)) ∧
    (∀ (compile : List Char → Option (List Char → Bool))
        (parseNet : String → Option IPNet) (id policy : String)
        (path : List Char) (methods : Option (List String))
        (ips : Option (List String)) (r : Rule),
      NewRule compile parseNet id policy path methods ips = .ok r →
      ∀ p, r.path = some p → p.raw ≠ []) := by
  constructor
  · intro raw hne
    have hlen : 0 < raw.length := List.length_pos.mpr hne
    simp only [pathIndexKeyChecked, pathIndexKey, take_one_eq, drop_last_eq]
    have hle : (if raw.head? = some '^' then 1 else 0) ≤
        (if raw.getLast? = some '$' then raw.length - 1 else raw.length) := by
      split_ifs with h1 h2
      · -- leading ^ and trailing $: a length-1 regex cannot carry both
        by_contra hlt
        rcases List.length_eq_one.mp (by omega : raw.length = 1) with ⟨a, ha⟩
        subst ha
        simp at h1 h2
        subst h1
        exact absurd h2 (by decide)
      · omega
      · omega
      · omega
    rw [if_neg (by omega), if_pos hle]
  · intro compile parseNet id policy path methods ips r hr p hp
    unfold NewRule at hr
    by_cases hpol : ¬(policy = ALLOW ∨ policy = DENY)
    · rw [if_pos hpol] at hr
      cases hr
    · rw [if_neg hpol] at hr
      cases hbp : buildPathRegex compile path with
      | error e => rw [hbp] at hr; cases hr
      | ok pr =>
        rw [hbp] at hr
        cases hbn : buildNetSet parseNet ips with
        | error e => rw [hbn] at hr; cases hr
        | ok ns =>
          rw [hbn] at hr
          cases hr
          exact buildPathRegex_raw compile path pr hbp p hp

/-- Claim C6 witness: the length-1 raw regexes `^` and `$` slice safely,
and a concrete `NewRule` call with an empty path yields an absent path. -/
theorem pathIndex_slicing_safe_witness :
    pathIndexKeyChecked ['^'] = some (pathIndexKey ['^']) ∧
      pathIndexKeyChecked ['$'] = some (pathIndexKey ['$']) ∧
      pathIndexKeyChecked ['/', 'a'] = some (pathIndexKey ['/', 'a']) :=
  ⟨pathIndex_slicing_safe.1 ['^'] (by decide),
    pathIndex_slicing_safe.1 ['$'] (by decide),
    pathIndex_slicing_safe.1 ['/', 'a'] (by decide)⟩

/-! ### Engine bookkeeping lemmas -/

/-- `PathIndex.IndexRule` never touches the global rule list. -/
theorem pathIndexRule_rules (e : Engine) (h : Nat) (r : Rule) :
    (pathIndexRule e h r).2.rules = e.rules := by
  cases hp : r.path <;> simp [pathIndexRule, hp]

/-- `MethodsIndex.IndexRule` never touches the global rule list. -/
theorem methodsIndexRule_rules (e : Engine) (h : Nat) (r : Rule) :
    (methodsIndexRule e h r).2.rules = e.rules := by
  cases hm : r.methods <;> simp [methodsIndexRule, hm]

/-- `IPsIndex.IndexRule` never touches the global rule list. -/
theorem ipsIndexRule_rules (e : Engine) (h : Nat) (r : Rule) :
    (ipsIndexRule e h r).2.rules = e.rules := by
  cases hi : r.ips <;> simp [ipsIndexRule, hi]

/-- `activateIndex` never touches the global rule list. -/
theorem activateIndex_rules (e : Engine) (k : IndexKind) :
    (activateIndex e k).rules = e.rules := by
  unfold activateIndex
  split_ifs <;> rfl

/-- `PathIndex.IndexRule` never touches the optimize flag. -/
theorem pathIndexRule_optimize (e : Engine) (h : Nat) (r : Rule) :
    (pathIndexRule e h r).2.optimize = e.optimize := by
  cases hp : r.path <;> simp [pathIndexRule, hp]

/-- `MethodsIndex.IndexRule` never touches the optimize flag. -/
theorem methodsIndexRule_optimize (e : Engine) (h : Nat) (r : Rule) :
    (methodsIndexRule e h r).2.optimize = e.optimize := by
  cases hm : r.methods <;> simp [methodsIndexRule, hm]

/-- `IPsIndex.IndexRule` never touches the optimize flag. -/
theorem ipsIndexRule_optimize (e : Engine) (h : Nat) (r : Rule) :
    (ipsIndexRule e h r).2.optimize = e.optimize := by
  cases hi : r.ips <;> simp [ipsIndexRule, hi]

/-- `activateIndex` never touches the optimize flag. -/
theorem activateIndex_optimize (e : Engine) (k : IndexKind) :
    (activateIndex e k).optimize = e.optimize := by
  unfold activateIndex
  split_ifs <;> rfl

/-- `offerIndex` never touches the global rule list. -/
theorem offerIndex_rules (b : Bool) (e : Engine) (k : IndexKind) :
    (offerIndex b e k).rules = e.rules := by
  cases b <;> simp [offerIndex, activateIndex_rules]

/-- `offerIndex` never touches the optimize flag. -/
theorem offerIndex_optimize (b : Bool) (e : Engine) (k : IndexKind) :
    (offerIndex b e k).optimize = e.optimize := by
  cases b <;> simp [offerIndex, activateIndex_optimize]

/-- `AddRule` appends the new rule at the end of the global list. -/
theorem addRule_rules (e : Engine) (r : Rule) :
    (addRule e r).rules = e.rules ++ [r] := by
  simp only [addRule]
  split_ifs <;>
    simp [offerIndex_rules, pathIndexRule_rules, methodsIndexRule_rules,
      ipsIndexRule_rules]

/-- `AddRule` turns `optimize` on exactly when the new rule count exceeds
5, and otherwise leaves it alone. -/
theorem addRule_optimize (e : Engine) (r : Rule) :
    (addRule e r).optimize =
      if 5 < e.rules.length + 1 then true else e.optimize := by
  simp only [addRule, offerIndex_rules, pathIndexRule_rules,
    methodsIndexRule_rules, ipsIndexRule_rules, List.length_append,
    List.length_cons, List.length_nil, gt_iff_lt]
  split_ifs <;>
    simp_all [offerIndex_optimize, pathIndexRule_optimize,
      methodsIndexRule_optimize, ipsIndexRule_optimize]

/-- `MatchRules` only updates index hit counters, never the rule list. -/
theorem idxMatchRules_rules (e : Engine) (k : IndexKind) (req : Request) :
    (idxMatchRules e k req).2.rules = e.rules := by
  cases k
  · unfold idxMatchRules
    cases assocLookup e.pathPaths req.path <;> simp
  · unfold idxMatchRules
    by_cases hb : ((assocLookup e.methodsBuckets req.method).getD []).isEmpty <;>
      simp [hb]
  · unfold idxMatchRules
    cases hic : req.clientIP with
    | error u => simp
    | ok oa =>
      cases oa with
      | none => simp
      | some a => by_cases hn : netSetHas e.ipsNets a <;> simp [hn]

/-- `MatchRules` never touches the optimize flag. -/
theorem idxMatchRules_optimize (e : Engine) (k : IndexKind) (req : Request) :
    (idxMatchRules e k req).2.optimize = e.optimize := by
  cases k
  · unfold idxMatchRules
    cases assocLookup e.pathPaths req.path <;> simp
  · unfold idxMatchRules
    by_cases hb : ((assocLookup e.methodsBuckets req.method).getD []).isEmpty <;>
      simp [hb]
  · unfold idxMatchRules
    cases hic : req.clientIP with
    | error u => simp
    | ok oa =>
      cases oa with
      | none => simp
      | some a => by_cases hn : netSetHas e.ipsNets a <;> simp [hn]

/-- `setBucket` writes an index bucket, never the rule list. -/
theorem setBucket_rules (e : Engine) (k : IndexKind) (req : Request)
    (b : List Nat) : (setBucket e k req b).rules = e.rules := by
  cases k <;> rfl

/-- `setBucket` never touches the optimize flag. -/
theorem setBucket_optimize (e : Engine) (k : IndexKind) (req : Request)
    (b : List Nat) : (setBucket e k req b).optimize = e.optimize := by
  cases k <;> rfl

/-- `prioritizeIndices` only reorders the index list. -/
theorem prioritizeIndices_rules (e : Engine) :
    (prioritizeIndices e).rules = e.rules := by
  unfold prioritizeIndices
  cases e.indices <;> rfl

/-- `prioritizeIndices` never touches the optimize flag. -/
theorem prioritizeIndices_optimize (e : Engine) :
    (prioritizeIndices e).optimize = e.optimize := by
  unfold prioritizeIndices
  cases e.indices <;> rfl

/-- Incrementing one rule's hits leaves the hit-blanked rule list
unchanged. -/
theorem bumpHits_map_eraseHits :
    ∀ (l : List Rule) (h : Nat),
      (bumpHits l h).map eraseHits = l.map eraseHits := by
  intro l
  induction l with
  | nil => intro h; rfl
  | cons r rest ih =>
    intro h
    cases h with
    | zero => simp [bumpHits, eraseHits]
    | succ n => simp [bumpHits, ih n]

/-- The boolean outcome of the global fallback sweep: some rule whose id is
not memoised matches. -/
theorem sweep_fst (pol : String) (req : Request) (checked : List String) :
    ∀ l : List Rule,
      (sweep pol req checked l).1 =
        l.any (fun r => !checked.contains r.id && r.cond pol req) := by
  intro l
  induction l with
  | nil => rfl
  | cons r rest ih =>
    unfold sweep
    by_cases hc : r.id ∈ checked
    · simp [hc, ih]
    · by_cases hm : r.cond pol req <;> simp [hc, hm, ih]

/-- The sweep increments at most one hit counter: the hit-blanked rule list
is unchanged. -/
theorem sweep_map_eraseHits (pol : String) (req : Request)
    (checked : List String) :
    ∀ l : List Rule,
      (sweep pol req checked l).2.map eraseHits = l.map eraseHits := by
  intro l
  induction l with
  | nil => rfl
  | cons r rest ih =>
    unfold sweep
    by_cases hc : r.id ∈ checked
    · simp [hc, ih]
    · by_cases hm : r.cond pol req <;> simp [hc, hm, ih, eraseHits]

/-- The boolean outcome of the plain linear scan: some rule matches. -/
theorem linearScan_fst (pol : String) (req : Request) :
    ∀ l : List Rule,
      (linearScan pol req l).1 = l.any (fun r => r.cond pol req) := by
  intro l
  induction l with
  | nil => rfl
  | cons r rest ih =>
    unfold linearScan
    by_cases hm : r.cond pol req <;> simp [hm, ih]

/-- The linear scan increments at most one hit counter: the hit-blanked
rule list is unchanged. -/
theorem linearScan_map_eraseHits (pol : String) (req : Request) :
    ∀ l : List Rule,
      (linearScan pol req l).2.map eraseHits = l.map eraseHits := by
  intro l
  induction l with
  | nil => rfl
  | cons r rest ih =>
    unfold linearScan
    by_cases hm : r.cond pol req <;> simp [hm, ih, eraseHits]

/-- When the bucket scan reports a match, the matched handle names a rule
of the store that satisfies the checker. -/
theorem scanBucket_some (rules : List Rule) (pol : String) (req : Request) :
    ∀ (bucket : List Nat) (i : Nat) (checked : List String) (j h : Nat)
      (ck' : List String),
      scanBucket rules pol req bucket i checked = (some (j, h), ck') →
      ∃ r, rules.get? h = some r ∧ r.cond pol req = true := by
  intro bucket
  induction bucket with
  | nil => intro i checked j h ck' heq; simp [scanBucket] at heq
  | cons hd rest ih =>
    intro i checked j h ck' heq
    unfold scanBucket at heq
    cases hg : rules.get? hd with
    | none =>
      rw [hg] at heq
      exact ih _ _ _ _ _ heq
    | some r =>
      rw [hg] at heq
      simp only [] at heq
      by_cases hc : checked.contains r.id
      · rw [if_pos hc] at heq
        exact ih _ _ _ _ _ heq
      · rw [if_neg hc] at heq
        by_cases hm : r.cond pol req
        · rw [if_pos hm] at heq
          cases heq
          exact ⟨r, hg, hm⟩
        · rw [if_neg hm] at heq
          exact ih _ _ _ _ _ heq

/-- When the bucket scan fails, every id it has memoised either was already
memoised or belongs to a store rule that fails the checker. -/
theorem scanBucket_none (rules : List Rule) (pol : String) (req : Request) :
    ∀ (bucket : List Nat) (i : Nat) (checked : List String)
      (ck' : List String),
      scanBucket rules pol req bucket i checked = (none, ck') →
      ∀ s ∈ ck', s ∈ checked ∨
        ∃ r, r ∈ rules ∧ r.id = s ∧ r.cond pol req = false := by
  intro bucket
  induction bucket with
  | nil =>
    intro i checked ck' heq s hs
    cases heq
    exact Or.inl hs
  | cons hd rest ih =>
    intro i checked ck' heq s hs
    unfold scanBucket at heq
    cases hg : rules.get? hd with
    | none =>
      rw [hg] at heq
      exact ih _ _ _ heq s hs
    | some r =>
      rw [hg] at heq
      simp only [] at heq
      by_cases hc : checked.contains r.id
      · rw [if_pos hc] at heq
        exact ih _ _ _ heq s hs
      · rw [if_neg hc] at heq
        by_cases hm : r.cond pol req
        · rw [if_pos hm] at heq
          cases heq
        · rw [if_neg hm] at heq
          rcases ih _ _ _ heq s hs with hmem | hex
          · rcases List.mem_cons.mp hmem with hhd | htl
            · exact Or.inr ⟨r, List.get?_mem hg, hhd.symm, Bool.eq_false_iff.mpr hm⟩
            · exact Or.inl htl
          · exact Or.inr hex

/-- One `bubbleStep` pass permutes the running element into the list. -/
theorem bubbleStep_perm {α : Type} (f : α → Nat) :
    ∀ (l : List α) (x : α), (bubbleStep f x l).Perm (x :: l) := by
  intro l
  induction l with
  | nil => intro x; exact List.Perm.refl _
  | cons y rest ih =>
    intro x
    unfold bubbleStep
    by_cases hf : f x < f y
    · rw [if_pos hf]
      exact ((ih x).cons y).trans (List.Perm.swap x y rest)
    · rw [if_neg hf]
      exact (ih y).cons x

/-- Swapping two adjacent positions permutes the list. -/
theorem swapAdj_perm {α : Type} :
    ∀ (l : List α) (n : Nat), (swapAdj l n).Perm l := by
  intro l
  induction l with
  | nil => intro n; cases n <;> exact List.Perm.refl _
  | cons x rest ih =>
    intro n
    cases n with
    | zero =>
      cases rest with
      | nil => exact List.Perm.refl _
      | cons y t => exact List.Perm.swap x y t
    | succ m =>
      cases rest with
      | nil => exact List.Perm.refl _
      | cons y t => exact ((ih m).cons x)

/-- `prioritizeRule` permutes (its single adjacent swap) the bucket. -/
theorem prioritizeRule_perm (rules : List Rule) (bucket : List Nat)
    (i : Nat) : (prioritizeRule rules bucket i).Perm bucket := by
  unfold prioritizeRule
  split_ifs with h
  · exact swapAdj_perm bucket (i - 1)
  · exact List.Perm.refl _

/-- The index phase of `check` answers false only with an unchanged rule
list and optimize flag, every memoised id naming a store rule that fails
the checker. -/
theorem runIndices_false (pol : String) (req : Request) :
    ∀ (inds : List IndexKind) (e : Engine) (checked ck' : List String)
      (e' : Engine),
      runIndices pol req e inds checked = (false, e', ck') →
      e'.rules = e.rules ∧ e'.optimize = e.optimize ∧
        (∀ s ∈ ck', s ∈ checked ∨
          ∃ r, r ∈ e.rules ∧ r.id = s ∧ r.cond pol req = false) := by
  intro inds
  induction inds with
  | nil =>
    intro e checked ck' e' heq
    cases heq
    exact ⟨rfl, rfl, fun s hs => Or.inl hs⟩
  | cons k rest ih =>
    intro e checked ck' e' heq
    simp only [runIndices] at heq
    rcases hsc : scanBucket (idxMatchRules e k req).2.rules pol req
        (idxMatchRules e k req).1 0 checked with ⟨osb, ck2⟩
    rw [hsc] at heq
    cases osb with
    | some p => simp at heq
    | none =>
      simp only [] at heq
      obtain ⟨hr, ho, hck⟩ := ih (idxMatchRules e k req).2 ck2 ck' e' heq
      have hrr := idxMatchRules_rules e k req
      have hoo := idxMatchRules_optimize e k req
      refine ⟨hr.trans hrr, ho.trans hoo, ?_⟩
      intro s hs
      rcases hck s hs with h2 | hex
      · rcases scanBucket_none (idxMatchRules e k req).2.rules pol req _ _ _ _
            hsc s h2 with hin | ⟨r, hrm, hid, hc⟩
        · exact Or.inl hin
        · exact Or.inr ⟨r, hrr ▸ hrm, hid, hc⟩
      · rcases hex with ⟨r, hrm, hid, hc⟩
        exact Or.inr ⟨r, hrr ▸ hrm, hid, hc⟩

/-- The index phase of `check` answers true only when some store rule
satisfies the checker. -/
theorem runIndices_true (pol : String) (req : Request) :
    ∀ (inds : List IndexKind) (e : Engine) (checked ck' : List String)
      (e' : Engine),
      runIndices pol req e inds checked = (true, e', ck') →
      ∃ r, r ∈ e.rules ∧ r.cond pol req = true := by
  intro inds
  induction inds with
  | nil =>
    intro e checked ck' e' heq
    simp [runIndices] at heq
  | cons k rest ih =>
    intro e checked ck' e' heq
    simp only [runIndices] at heq
    rcases hsc : scanBucket (idxMatchRules e k req).2.rules pol req
        (idxMatchRules e k req).1 0 checked with ⟨osb, ck2⟩
    rw [hsc] at heq
    cases osb with
    | some p =>
      obtain ⟨r, hget, hcond⟩ :=
        scanBucket_some (idxMatchRules e k req).2.rules pol req _ _ _ p.1 p.2
          _ hsc
      exact ⟨r, idxMatchRules_rules e k req ▸ List.get?_mem hget, hcond⟩
    | none =>
      simp only [] at heq
      obtain ⟨r, hrm, hcond⟩ := ih (idxMatchRules e k req).2 ck2 ck' e' heq
      exact ⟨r, idxMatchRules_rules e k req ▸ hrm, hcond⟩

/-- The index phase of `check` only increments hit counters: the
hit-blanked rule list is unchanged. -/
theorem runIndices_map_erase (pol : String) (req : Request) :
    ∀ (inds : List IndexKind) (e : Engine) (checked : List String),
      (runIndices pol req e inds checked).2.1.rules.map eraseHits =
        e.rules.map eraseHits := by
  intro inds
  induction inds with
  | nil => intro e checked; rfl
  | cons k rest ih =>
    intro e checked
    simp only [runIndices]
    rcases hsc : scanBucket (idxMatchRules e k req).2.rules pol req
        (idxMatchRules e k req).1 0 checked with ⟨osb, ck2⟩
    cases osb with
    | some p =>
      simp only [setBucket_rules, bumpHits_map_eraseHits]
      exact congrArg (List.map eraseHits) (idxMatchRules_rules e k req)
    | none =>
      simp only []
      rw [ih]
      exact congrArg (List.map eraseHits) (idxMatchRules_rules e k req)

/-- The index phase of `check` never touches the optimize flag. -/
theorem runIndices_optimize (pol : String) (req : Request) :
    ∀ (inds : List IndexKind) (e : Engine) (checked : List String),
      (runIndices pol req e inds checked).2.1.optimize = e.optimize := by
  intro inds
  induction inds with
  | nil => intro e checked; rfl
  | cons k rest ih =>
    intro e checked
    simp only [runIndices]
    rcases hsc : scanBucket (idxMatchRules e k req).2.rules pol req
        (idxMatchRules e k req).1 0 checked with ⟨osb, ck2⟩
    cases osb with
    | some p =>
      simp only [setBucket_optimize]
      exact idxMatchRules_optimize e k req
    | none =>
      simp only []
      rw [ih]
      exact idxMatchRules_optimize e k req

/-- The probabilistic reorder step keeps the rule list. -/
theorem ifReorder_rules (e : Engine) (rd : Bool) :
    (if rd then prioritizeIndices e else e).rules = e.rules := by
  cases rd <;> simp [prioritizeIndices_rules]

/-- The probabilistic reorder step keeps the optimize flag. -/
theorem ifReorder_optimize (e : Engine) (rd : Bool) :
    (if rd then prioritizeIndices e else e).optimize = e.optimize := by
  cases rd <;> simp [prioritizeIndices_optimize]

/-- `check` only increments hit counters: the hit-blanked rule list is
unchanged (in particular the global list is never reordered). -/
theorem check_rules_map_erase (e : Engine) (req : Request) (pol : String)
    (rd : Bool) :
    (check e req pol rd).2.rules.map eraseHits = e.rules.map eraseHits := by
  simp only [check]
  by_cases hopt : e.optimize = false
  · simp [hopt, linearScan_map_eraseHits]
  · rw [if_neg hopt]
    rcases hri : runIndices pol req (if rd then prioritizeIndices e else e)
        (if rd then prioritizeIndices e else e).indices [] with ⟨b, e2, ck⟩
    have hrun := runIndices_map_erase pol req
      (if rd then prioritizeIndices e else e).indices
      (if rd then prioritizeIndices e else e) []
    rw [hri] at hrun
    have hbase : e2.rules.map eraseHits = e.rules.map eraseHits := by
      rw [hrun, ifReorder_rules]
    cases b with
    | true => exact hbase
    | false =>
      simp only [sweep_map_eraseHits]
      exact hbase

/-- `check` never touches the optimize flag. -/
theorem check_optimize (e : Engine) (req : Request) (pol : String)
    (rd : Bool) : (check e req pol rd).2.optimize = e.optimize := by
  simp only [check]
  by_cases hopt : e.optimize = false
  · simp [hopt]
  · rw [if_neg hopt]
    rcases hri : runIndices pol req (if rd then prioritizeIndices e else e)
        (if rd then prioritizeIndices e else e).indices [] with ⟨b, e2, ck⟩
    have hrun := runIndices_optimize pol req
      (if rd then prioritizeIndices e else e).indices
      (if rd then prioritizeIndices e else e) []
    rw [hri] at hrun
    have hbase : e2.optimize = e.optimize := by
      rw [hrun, ifReorder_optimize]
    cases b with
    | true => exact hbase
    | false => exact hbase

/-- `check` preserves the number of rules. -/
theorem check_rules_length (e : Engine) (req : Request) (pol : String)
    (rd : Bool) : (check e req pol rd).2.rules.length = e.rules.length := by
  have h := congrArg List.length (check_rules_map_erase e req pol rd)
  simpa using h

/-- Running a sequence of operations appends exactly the added rules (up to
hit counters) to the global list. -/
theorem foldl_map_erase :
    ∀ (ops : List Op) (e : Engine),
      (List.foldl step e ops).rules.map eraseHits =
        e.rules.map eraseHits ++ (addsOf ops).map eraseHits := by
  intro ops
  induction ops with
  | nil => intro e; simp [addsOf]
  | cons op rest ih =>
    intro e
    cases op with
    | add r =>
      simp only [List.foldl_cons, step]
      rw [ih]
      simp [addsOf, addRule_rules]
    | chk q p d =>
      simp only [List.foldl_cons, step]
      rw [ih, check_rules_map_erase]
      simp [addsOf]

/-- Running a sequence of operations grows the rule count by the number of
`AddRule`s. -/
theorem foldl_length (ops : List Op) (e : Engine) :
    (List.foldl step e ops).rules.length =
      e.rules.length + (addsOf ops).length := by
  have h := congrArg List.length (foldl_map_erase ops e)
  simpa using h

/-- The `optimize` flag stays the truth value of `5 < |rules|` across every
operation. -/
theorem foldl_opt_inv :
    ∀ (ops : List Op) (e : Engine),
      e.optimize = decide (5 < e.rules.length) →
      (List.foldl step e ops).optimize =
        decide (5 < (List.foldl step e ops).rules.length) := by
  intro ops
  induction ops with
  | nil => intro e h; exact h
  | cons op rest ih =>
    intro e h
    cases op with
    | add r =>
      simp only [List.foldl_cons, step]
      apply ih
      rw [addRule_optimize, addRule_rules]
      simp only [List.length_append, List.length_cons, List.length_nil,
        Nat.zero_add]
      by_cases h5 : 5 < e.rules.length + 1
      · simp [h5]
      · rw [if_neg h5, h]
        have h4 : ¬5 < e.rules.length := by omega
        simp [h5, h4]
    | chk q p d =>
      simp only [List.foldl_cons, step]
      apply ih
      rw [check_optimize, check_rules_length, h]

/-- Claim C4: starting from a fresh engine, after any sequence of
operations the `optimize` flag holds exactly when more than 5 rules have
been added — false through the fifth `AddRule`, true from the sixth on,
and never reverting on later operations (evaluations add no rules). -/
theorem optimize_flag_spec (ops : List Op) :
    (List.foldl step newRulesEngine ops).optimize =
      decide (5 < (addsOf ops).length) := by
  have h0 : newRulesEngine.optimize =
      decide (5 < newRulesEngine.rules.length) := by
    simp [newRulesEngine]
  have h1 := foldl_opt_inv ops newRulesEngine h0
  have h2 := foldl_length ops newRulesEngine
  rw [h1, h2]
  simp [newRulesEngine]

/-- Claim C7: `prioritizeIndices` permutes the active index list,
`prioritizeRule` permutes its candidate bucket, and after any sequence of
operations on a fresh engine the global rule list is exactly the list of
added rules in insertion order (up to hit counters): the global list is
never reordered and its multiset of rules is the inserted one. -/
theorem reordering_preserves_rules :
    (∀ e : Engine, (prioritizeIndices e).indices.Perm e.indices) ∧
    (∀ (rules : List Rule) (bucket : List Nat) (i : Nat),
      (prioritizeRule rules bucket i).Perm bucket) ∧
    (∀ ops : List Op,
      (List.foldl step newRulesEngine ops).rules.map eraseHits =
        (addsOf ops).map eraseHits) := by
  refine ⟨?_, prioritizeRule_perm, ?_⟩
  · intro e
    cases hi : e.indices with
    | nil =>
      unfold prioritizeIndices
      rw [hi]
      simp only []
      rw [hi]
    | cons k rest =>
      unfold prioritizeIndices
      rw [hi]
      exact bubbleStep_perm (idxHits e) rest k
  · intro ops
    have h := foldl_map_erase ops newRulesEngine
    simpa [newRulesEngine] using h

/-- Claim C1: on an engine in optimized mode whose rule ids are distinct
(the data model makes them unique within an engine), the optimized check
path — index candidates under the `checked` memo, then the global sweep
skipping checked ids — returns true exactly when the plain linear scan of
the rules in insertion order does, for the Allow and the Deny checker alike
(`pol` ranges over both) and for either outcome of the reorder draw. -/
theorem rulesEngine_check_iff_linear (e : Engine) (req : Request)
    (pol : String) (rd : Bool) (hopt : e.optimize = true)
    (hnd : (e.rules.map Rule.id).Nodup) :
    (check e req pol rd).1 = (linearScan pol req e.rules).1 := by
  rw [linearScan_fst]
  simp only [check]
  rw [if_neg (by simp [hopt])]
  have he1r : (if rd then prioritizeIndices e else e).rules = e.rules :=
    ifReorder_rules e rd
  rcases hri : runIndices pol req (if rd then prioritizeIndices e else e)
      (if rd then prioritizeIndices e else e).indices [] with ⟨b, e2, ck⟩
  cases b with
  | true =>
    obtain ⟨r, hrm, hrc⟩ := runIndices_true pol req _ _ _ _ _ hri
    rw [he1r] at hrm
    exact (List.any_eq_true.mpr ⟨r, hrm, hrc⟩).symm
  | false =>
    simp only [sweep_fst]
    obtain ⟨h2r, -, hck⟩ := runIndices_false pol req _ _ _ _ _ hri
    rw [h2r, he1r]
    cases hany : e.rules.any (fun r => r.cond pol req) with
    | false =>
      apply List.any_eq_false.mpr
      intro r hr
      have hrf := List.any_eq_false.mp hany r hr
      simp [Bool.eq_false_iff.mpr hrf]
    | true =>
      obtain ⟨r, hrm, hrc⟩ := List.any_eq_true.mp hany
      apply List.any_eq_true.mpr
      refine ⟨r, hrm, ?_⟩
      have hnotin : r.id ∉ ck := by
        intro hin
        rcases hck r.id hin with habs | ⟨r', hr'm, hid, hcf⟩
        · exact absurd habs (List.not_mem_nil _)
        · rw [he1r] at hr'm
          have hrr : r' = r := List.inj_on_of_nodup_map hnd hr'm hrm hid
          rw [hrr] at hcf
          rw [hrc] at hcf
          cases hcf
      simp [hnotin, hrc]

/-- Claim C1 witness: the six-rule fixture engine (optimize on, ids
distinct), compared against the linear scan for both policies and both
reorder draws. -/
theorem rulesEngine_check_iff_linear_witness :
    wEngine.optimize = true ∧ (wEngine.rules.map Rule.id).Nodup ∧
      (check wEngine wReq ALLOW false).1 = (linearScan ALLOW wReq wEngine.rules).1 ∧
      (check wEngine wReq DENY true).1 = (linearScan DENY wReq wEngine.rules).1 :=
  ⟨rfl, by decide,
    rulesEngine_check_iff_linear wEngine wReq ALLOW false rfl (by decide),
    rulesEngine_check_iff_linear wEngine wReq DENY true rfl (by decide)⟩

end OAuth2Proxy
